import Mathlib

/-!
Verification of the cell-cluster geometry builder of BETSE
(`betse/science/world.py`, class `World`).

The Python code is shallowly embedded over exact rationals: a 2-D point is a
pair of rationals, a polygon is a list of points, and every `World` method that
a claim touches becomes a Lean function on explicit data.  Outputs of external
libraries (scipy's Voronoi / Delaunay / KD-tree, matplotlib's point-in-path
test, numpy's random generator and its square-root based Euclidean norm) are
passed to the embedded functions as explicit arguments, since the repository
does not compute them itself.  The helper module `betse.science.toolbox`
(`flatten`, `alpha_shape`, `clip`, `area`) is referenced by `world.py` but its
source is not part of this snapshot; where one of its functions matters it is
either modelled from the specification or taken as a parameter.
-/

namespace Betse

/-- A 2-D point (or vector) with exact rational coordinates. -/
abbrev Point : Type := ℚ × ℚ

/-- A polygon: an ordered list of vertices, as in the nested Python lists. -/
abbrev Poly : Type := List Point

/-- The planar cross product `u.x * v.y - u.y * v.x`. -/
def cross (u v : Point) : ℚ := u.1 * v.2 - u.2 * v.1

/-- The planar dot product, as used by `np.dot` on 2-vectors. -/
def dot (u v : Point) : ℚ := u.1 * v.1 + u.2 * v.2

/-- Rotation of a vector by 90 degrees: `[-v.y, v.x]`, the formula
`norml = np.array([-tang[1], tang[0]])` used throughout `world.py`. -/
def rot90 (v : Point) : Point := (-v.2, v.1)

/-- The sign function of `np.sign`: -1, 0 or 1. -/
def qsign (q : ℚ) : ℚ := if q < 0 then -1 else if q = 0 then 0 else 1

/-- Mean of a list of rationals (`np.mean`); 0 on the empty list, where numpy
would return nan (no claim evaluates that case). -/
def qmean (l : List ℚ) : ℚ := l.sum / l.length

/-- Column-wise mean of a point list, i.e. `np.mean(points, axis=0)`. -/
def centroid (l : List Point) : Point := (qmean (l.map Prod.fst), qmean (l.map Prod.snd))

/-- Rotate a list one step to the right, so that `rotR l` starts with the last
element of `l`.  Pairing `rotR poly` with `poly` reproduces the Python edge
loop `for i in range(0, len(poly)): pt1 = poly[i-1]; pt2 = poly[i]`, whose
first iteration wraps around via the negative index `poly[-1]`. -/
def rotR {α : Type} (l : List α) : List α :=
  match l.getLast? with
  | none => []
  | some x => x :: l.dropLast

/-- The cyclic edge list of a polygon: `(poly[i-1], poly[i])` for each `i`. -/
def polyEdges (poly : Poly) : List (Point × Point) := (rotR poly).zip poly

/-- Midpoint of a segment, `(pt1 + pt2) / 2`. -/
def midpt (pq : Point × Point) : Point := ((1 : ℚ) / 2) • (pq.1 + pq.2)

/-- Modelled from the spec: `betse.science.toolbox.flatten` is absent from the
snapshot; `world.py`'s field documentation describes its outputs: the flat
concatenation of a nested list, together with `indmap` sending each flat index
`k` to the nested indices `[n, m]` (the reverse map is not needed here). -/
def flattenPts (nested : List Poly) : List Point := nested.join

/-- Modelled from the spec: the index map of `betse.science.toolbox.flatten`,
listing for each flat index the nested index pair `(n, m)`, in flat order. -/
def indmapOf (nested : List Poly) : List (ℕ × ℕ) :=
  (nested.enum.map (fun ip => ip.2.enum.map (fun jv => (ip.1, jv.1)))).join

/-- Embedding of `World.cell_index`: one centroid per `ecm_verts` polygon, in
list order (`np.mean(poly, axis=0)` stacked row by row). -/
def cell_index (ecm_verts : List Poly) : List Point := ecm_verts.map centroid

/-- Embedding of `World.cellVerts`: for each cell, each extracellular vertex is
translated to the cell centre, scaled by `sf` and translated back
(`pt_scale.append(self.sf*pt_zero + centre)`). -/
def cellVerts (sf : ℚ) (cell_centres : List Point) (ecm_verts : List Poly) : List Poly :=
  (cell_centres.zip ecm_verts).map (fun cp => cp.2.map (fun vert => sf • (vert - cp.1) + cp.1))

/-- Embedding of `World.clean_ecm`.  The concave hull returned by
`tb.alpha_shape` (a list of boundary edges, each a list of flat vertex
indices) is an explicit argument.  Every flat index appearing in the hull is
mapped through `indmap` to its nested position, the vertex there is tagged
(`= False` in Python, `none` here), and the tagged vertices are dropped; the
top-level list of polygons is rebuilt with one (possibly shorter) polygon per
cell. -/
def clean_ecm (ecm_verts : List Poly) (con_hull : List (List ℕ)) : List Poly :=
  let indmap := indmapOf ecm_verts
  let marked : List (ℕ × ℕ) := con_hull.join.filterMap (fun val => indmap[val]?)
  ecm_verts.enum.map (fun ip =>
    ip.2.enum.filterMap (fun jv => if (ip.1, jv.1) ∈ marked then none else some jv.2))

/-- The per-cell state that `World.makeWorld` (worldtype 'full') builds through
`cell_index`, `cellVerts`, `clean_ecm` and the membrane part of `cellGeo`.
`nrm` stands for numpy's Euclidean norm of a 2-vector (`np.sqrt(dx**2+dy**2)`),
which is irrational in general and is therefore a parameter. -/
structure WorldFull where
  cell_centres : List Point
  cell_verts : List Poly
  ecm_verts : List Poly
  mem_edges : List (List (Point × Point))
  mem_mids : List (List Point)
  mem_length : List (List ℚ)

/-- Embedding of the geometry-building prefix of `World.makeWorld` for a
'full' world: `cell_index` and `cellVerts` run on the ecm polygons produced by
`makeVoronoi`, *then* `clean_ecm` pops the hull vertices out of `ecm_verts`,
and the membrane loop of `cellGeo` derives `mem_edges`, `mem_mids` and
`mem_length` from `cell_verts`. -/
def makeWorldFull (nrm : Point → ℚ) (sf : ℚ) (ecm0 : List Poly)
    (con_hull : List (List ℕ)) : WorldFull :=
  let centres := cell_index ecm0
  let cverts := cellVerts sf centres ecm0
  { cell_centres := centres
    cell_verts := cverts
    ecm_verts := clean_ecm ecm0 con_hull
    mem_edges := cverts.map polyEdges
    mem_mids := cverts.map (fun poly => (polyEdges poly).map midpt)
    mem_length := cverts.map (fun poly => (polyEdges poly).map (fun pq => nrm (pq.2 - pq.1))) }

/-- Embedding of the geometry-building prefix of `World.makeWorld` for a
'basic' world: no `clean_ecm` and no membrane derivation. -/
def makeWorldBasic (sf : ℚ) (ecm0 : List Poly) : List Point × List Poly × List Poly :=
  let centres := cell_index ecm0
  (centres, cellVerts sf centres ecm0, ecm0)

theorem rotR_length {α : Type} (l : List α) : (rotR l).length = l.length := by
  cases l with
  | nil => rfl
  | cons x xs =>
      simp only [rotR, List.getLast?_cons, List.dropLast]
      cases h : (x :: xs).getLast? with
      | none => simp [List.getLast?_eq_none_iff] at h
      | some y => simp [List.length_dropLast]

theorem polyEdges_length (poly : Poly) : (polyEdges poly).length = poly.length := by
  simp [polyEdges, List.length_zip, rotR_length]

theorem cell_index_length (ecm : List Poly) : (cell_index ecm).length = ecm.length := by
  simp [cell_index]

theorem cellVerts_length (sf : ℚ) (centres : List Point) (ecm : List Poly) :
    (cellVerts sf centres ecm).length = min centres.length ecm.length := by
  simp [cellVerts]

theorem clean_ecm_length (ecm : List Poly) (hull : List (List ℕ)) :
    (clean_ecm ecm hull).length = ecm.length := by
  simp [clean_ecm]

theorem cellVerts_get (sf : ℚ) (centres : List Point) (ecm : List Poly) (i : ℕ)
    (hc : i < centres.length) (he : i < ecm.length) :
    (cellVerts sf centres ecm)[i]? =
      some ((ecm[i]?.getD []).map (fun vert => sf • (vert - centres[i]?.getD 0) + centres[i]?.getD 0)) := by
  have hz : i < (centres.zip ecm).length := by
    simp only [List.length_zip]; omega
  rw [cellVerts, List.getElem?_map, List.getElem?_eq_getElem hz]
  simp [List.getElem_zip, List.getElem?_eq_getElem hc, List.getElem?_eq_getElem he]

theorem cellVerts_get_length (sf : ℚ) (centres : List Point) (ecm : List Poly)
    (h : centres.length = ecm.length) (i : ℕ) :
    (((cellVerts sf centres ecm)[i]?).getD []).length = ((ecm[i]?).getD []).length := by
  by_cases hi : i < ecm.length
  · rw [cellVerts_get sf centres ecm i (by omega) hi]
    rw [List.getElem?_eq_getElem hi]
    simp
  · rw [List.getElem?_eq_none (by simp [cellVerts, List.length_zip]; omega),
      List.getElem?_eq_none (by omega)]

theorem clean_ecm_get_length_le (ecm : List Poly) (hull : List (List ℕ)) (i : ℕ) :
    (((clean_ecm ecm hull)[i]?).getD []).length ≤ ((ecm[i]?).getD []).length := by
  by_cases hi : i < ecm.length
  · have hi' : i < ecm.enum.length := by simpa using hi
    rw [clean_ecm]
    simp only [List.getElem?_map, List.getElem?_eq_getElem hi',
      List.getElem?_eq_getElem hi, Option.map_some, Option.getD_some]
    calc ((ecm.enum[i].2.enum.filterMap _)).length
        ≤ ecm.enum[i].2.enum.length := List.length_filterMap_le _ _
      _ = ecm[i].length := by simp [List.getElem_enum]
  · rw [List.getElem?_eq_none (by simp [clean_ecm]; omega),
      List.getElem?_eq_none (by omega)]

theorem mem_arrays_get (nrm : Point → ℚ) (sf : ℚ) (ecm0 : List Poly)
    (hull : List (List ℕ)) (i : ℕ) :
    ((makeWorldFull nrm sf ecm0 hull).mem_edges[i]?).getD [] =
      polyEdges (((makeWorldFull nrm sf ecm0 hull).cell_verts[i]?).getD []) ∧
    ((makeWorldFull nrm sf ecm0 hull).mem_mids[i]?).getD [] =
      (polyEdges (((makeWorldFull nrm sf ecm0 hull).cell_verts[i]?).getD [])).map midpt ∧
    ((makeWorldFull nrm sf ecm0 hull).mem_length[i]?).getD [] =
      (polyEdges (((makeWorldFull nrm sf ecm0 hull).cell_verts[i]?).getD [])).map
        (fun pq => nrm (pq.2 - pq.1)) := by
  simp only [makeWorldFull, List.getElem?_map]
  cases h : (cellVerts sf (cell_index ecm0) ecm0)[i]? with
  | none => simp [polyEdges, rotR]
  | some poly => simp

/-- Concrete input refuting C1: a single square ecm polygon whose first two
flat vertices are reported as a boundary edge by the concave hull. -/
def cexEcmC1 : List Poly := [[(0, 0), (1, 0), (1, 1), (0, 1)]]

/-- The concave-hull edge list used in the C1 counterexample. -/
def cexHullC1 : List (List ℕ) := [[0, 1]]

/-- C1 counterexample: after the 'full' pipeline, cell 0 has 4 scaled vertices
(and 4 membrane domains) but only 2 remaining ecm vertices, because
`clean_ecm` pops the hull vertices *after* `cellVerts` has already copied the
polygon.  The spec's invariant `len(cell_verts[i]) == len(ecm_verts[i])` fails
on every run in which `clean_ecm` removes at least one vertex. -/
theorem C1_counterexample :
    (((makeWorldFull (fun _ => 0) ((1 : ℚ) / 2) cexEcmC1 cexHullC1).cell_verts[0]?).getD []).length
      ≠ (((makeWorldFull (fun _ => 0) ((1 : ℚ) / 2) cexEcmC1 cexHullC1).ecm_verts[0]?).getD []).length := by
  decide

/-- C1 (amended): after `makeWorld` for a 'full' world, for every cell index
`i` the counts of `mem_edges[i]`, `mem_mids[i]` and `mem_length[i]` all equal
the vertex count of `cell_verts[i]`, and the vertex count of `ecm_verts[i]` is
at most that common count (strictly less for cells that lost vertices to the
boundary cleanup); equality with `ecm_verts[i]` holds only when `clean_ecm`
popped no vertex of cell `i`. -/
theorem C1_theorem (nrm : Point → ℚ) (sf : ℚ) (ecm0 : List Poly)
    (hull : List (List ℕ)) (i : ℕ) :
    (((makeWorldFull nrm sf ecm0 hull).mem_edges[i]?).getD []).length
        = (((makeWorldFull nrm sf ecm0 hull).cell_verts[i]?).getD []).length ∧
    (((makeWorldFull nrm sf ecm0 hull).mem_mids[i]?).getD []).length
        = (((makeWorldFull nrm sf ecm0 hull).cell_verts[i]?).getD []).length ∧
    (((makeWorldFull nrm sf ecm0 hull).mem_length[i]?).getD []).length
        = (((makeWorldFull nrm sf ecm0 hull).cell_verts[i]?).getD []).length ∧
    (((makeWorldFull nrm sf ecm0 hull).ecm_verts[i]?).getD []).length
        ≤ (((makeWorldFull nrm sf ecm0 hull).cell_verts[i]?).getD []).length := by
  obtain ⟨h1, h2, h3⟩ := mem_arrays_get nrm sf ecm0 hull i
  refine ⟨by rw [h1, polyEdges_length], by rw [h2, List.length_map, polyEdges_length],
    by rw [h3, List.length_map, polyEdges_length], ?_⟩
  show (((clean_ecm ecm0 hull)[i]?).getD []).length ≤ _
  have hcv : (((makeWorldFull nrm sf ecm0 hull).cell_verts[i]?).getD []).length
      = ((ecm0[i]?).getD []).length :=
    cellVerts_get_length sf (cell_index ecm0) ecm0 (cell_index_length ecm0) i
  rw [hcv]
  exact clean_ecm_get_length_le ecm0 hull i

/-- C2: after `makeWorld`, for the 'full' world type the top-level lengths of
`cell_centres`, `cell_verts` and `ecm_verts` coincide, and likewise for the
'basic' world type: exactly one centre, one scaled polygon and one ecm polygon
per cell, in the same index order. -/
theorem C2_theorem (nrm : Point → ℚ) (sf : ℚ) (ecm0 : List Poly)
    (hull : List (List ℕ)) :
    ((makeWorldFull nrm sf ecm0 hull).cell_centres.length
        = (makeWorldFull nrm sf ecm0 hull).cell_verts.length ∧
      (makeWorldFull nrm sf ecm0 hull).cell_verts.length
        = (makeWorldFull nrm sf ecm0 hull).ecm_verts.length) ∧
    ((makeWorldBasic sf ecm0).1.length = (makeWorldBasic sf ecm0).2.1.length ∧
      (makeWorldBasic sf ecm0).2.1.length = (makeWorldBasic sf ecm0).2.2.length) := by
  simp [makeWorldFull, makeWorldBasic, cellVerts_length, clean_ecm_length,
    cell_index_length]

/-- Python's `list.index`, returning `none` where Python raises `ValueError`. -/
def pyIndex {α : Type} [DecidableEq α] : List α → α → Option ℕ
  | [], _ => none
  | x :: xs, a => if x = a then some 0 else (pyIndex xs a).map (· + 1)

/-- First-occurrence index with a default for the impossible missing case,
mirroring `list.index` on data where the element is known to be present. -/
def pyIndexD {α : Type} [DecidableEq α] (l : List α) (a : α) : ℕ :=
  (pyIndex l a).getD l.length

/-- Semantic model of insertion into a Python `set` (represented as the list
of its elements in insertion order): a new element is appended only if it is
not already present. -/
def insertIfAbsent {α : Type} [DecidableEq α] (s : List α) (x : α) : List α :=
  if x ∈ s then s else s ++ [x]

theorem mem_insertIfAbsent_self {α : Type} [DecidableEq α] (s : List α) (x : α) :
    x ∈ insertIfAbsent s x := by
  unfold insertIfAbsent
  split <;> simp_all

theorem mem_insertIfAbsent_of_mem {α : Type} [DecidableEq α] {s : List α} {y : α} (x : α)
    (h : y ∈ s) : y ∈ insertIfAbsent s x := by
  unfold insertIfAbsent
  split <;> simp_all

theorem insertIfAbsent_forall {α : Type} [DecidableEq α] {P : α → Prop} {s : List α} {x : α}
    (hs : ∀ y ∈ s, P y) (hx : P x) : ∀ y ∈ insertIfAbsent s x, P y := by
  unfold insertIfAbsent
  split
  · exact hs
  · intro y hy
    rcases List.mem_append.1 hy with h | h
    · exact hs y h
    · simp only [List.mem_singleton] at h
      exact h ▸ hx

theorem insertIfAbsent_nodup {α : Type} [DecidableEq α] {s : List α} (x : α)
    (h : s.Nodup) : (insertIfAbsent s x).Nodup := by
  unfold insertIfAbsent
  split
  · exact h
  · simp_all [List.nodup_append]

theorem pyIndex_isSome_of_mem {α : Type} [DecidableEq α] {l : List α} {a : α}
    (h : a ∈ l) : (pyIndex l a).isSome := by
  induction l with
  | nil => simp at h
  | cons x xs ih =>
      unfold pyIndex
      rcases List.mem_cons.1 h with h | h
      · simp [h]
      · by_cases hx : x = a <;> simp [hx, ih h]

/-- One pair insertion of the gap-junction loop in `World.near_neigh`: a
self-pair is skipped, otherwise the pair is stored in `(min, max)` order in the
`GJs` set. -/
def gjStep (c1 c2 : ℕ) (s : List (ℕ × ℕ)) : List (ℕ × ℕ) :=
  if c1 = c2 then s
  else if c1 < c2 then insertIfAbsent s (c1, c2)
  else insertIfAbsent s (c2, c1)

/-- The inner loop of `World.near_neigh` over the neighbours of cell `c1`. -/
def gjRow (c1 : ℕ) : List ℕ → List (ℕ × ℕ) → List (ℕ × ℕ)
  | [], s => s
  | c2 :: rest, s => gjRow c1 rest (gjStep c1 c2 s)

/-- The outer loop of `World.near_neigh` over `enumerate(self.cell_nn)`. -/
def gjBuild (c1 : ℕ) : List (List ℕ) → List (ℕ × ℕ) → List (ℕ × ℕ)
  | [], s => s
  | row :: rest, s => gjBuild (c1 + 1) rest (gjRow c1 row s)

/-- Embedding of the construction of `self.gap_jun_i` in `World.near_neigh`:
the KD-tree neighbourhood lists `cell_nn` are the input, and the result lists
the unique canonical cell pairs in insertion order. -/
def near_neigh_gap_jun (cell_nn : List (List ℕ)) : List (ℕ × ℕ) :=
  gjBuild 0 cell_nn []

theorem gjStep_forall {P : ℕ × ℕ → Prop} {s : List (ℕ × ℕ)} (c1 c2 : ℕ)
    (hs : ∀ p ∈ s, P p) (h1 : c1 < c2 → P (c1, c2)) (h2 : c2 < c1 → P (c2, c1)) :
    ∀ p ∈ gjStep c1 c2 s, P p := by
  unfold gjStep
  split
  · exact hs
  · split
    · exact insertIfAbsent_forall hs (h1 (by assumption))
    · exact insertIfAbsent_forall hs (h2 (by omega))

theorem gjStep_lt {s : List (ℕ × ℕ)} (c1 c2 : ℕ)
    (hs : ∀ p ∈ s, p.1 < p.2) : ∀ p ∈ gjStep c1 c2 s, p.1 < p.2 :=
  gjStep_forall c1 c2 hs (fun h => h) (fun h => h)

theorem gjStep_nodup {s : List (ℕ × ℕ)} (c1 c2 : ℕ)
    (hs : s.Nodup) : (gjStep c1 c2 s).Nodup := by
  unfold gjStep
  split
  · exact hs
  · split <;> exact insertIfAbsent_nodup _ hs

theorem gjStep_mono {s : List (ℕ × ℕ)} {p : ℕ × ℕ} (c1 c2 : ℕ)
    (h : p ∈ s) : p ∈ gjStep c1 c2 s := by
  unfold gjStep
  split
  · exact h
  · split <;> exact mem_insertIfAbsent_of_mem _ h

theorem gjRow_lt {row : List ℕ} {s : List (ℕ × ℕ)} (c1 : ℕ)
    (hs : ∀ p ∈ s, p.1 < p.2) : ∀ p ∈ gjRow c1 row s, p.1 < p.2 := by
  induction row generalizing s with
  | nil => exact hs
  | cons c2 rest ih => exact ih (gjStep_lt c1 c2 hs)

theorem gjRow_nodup {row : List ℕ} {s : List (ℕ × ℕ)} (c1 : ℕ)
    (hs : s.Nodup) : (gjRow c1 row s).Nodup := by
  induction row generalizing s with
  | nil => exact hs
  | cons c2 rest ih => exact ih (gjStep_nodup c1 c2 hs)

theorem gjRow_mono {row : List ℕ} {s : List (ℕ × ℕ)} {p : ℕ × ℕ} (c1 : ℕ)
    (h : p ∈ s) : p ∈ gjRow c1 row s := by
  induction row generalizing s with
  | nil => exact h
  | cons c2 rest ih => exact ih (gjStep_mono c1 c2 h)

theorem mem_gjRow {row : List ℕ} {s : List (ℕ × ℕ)} {c1 ns : ℕ}
    (h : ns ∈ row) (hne : c1 ≠ ns) :
    (if c1 < ns then (c1, ns) else (ns, c1)) ∈ gjRow c1 row s := by
  induction row generalizing s with
  | nil => simp at h
  | cons c2 rest ih =>
      rcases List.mem_cons.1 h with h | h
      · subst h
        show _ ∈ gjRow c1 rest (gjStep c1 ns s)
        apply gjRow_mono
        unfold gjStep
        rw [if_neg hne]
        split
        · exact mem_insertIfAbsent_self _ _
        · exact mem_insertIfAbsent_self _ _
      · exact ih h

theorem gjBuild_lt {rows : List (List ℕ)} {s : List (ℕ × ℕ)} (c1 : ℕ)
    (hs : ∀ p ∈ s, p.1 < p.2) : ∀ p ∈ gjBuild c1 rows s, p.1 < p.2 := by
  induction rows generalizing s c1 with
  | nil => exact hs
  | cons row rest ih => exact ih _ (gjRow_lt c1 hs)

theorem gjBuild_nodup {rows : List (List ℕ)} {s : List (ℕ × ℕ)} (c1 : ℕ)
    (hs : s.Nodup) : (gjBuild c1 rows s).Nodup := by
  induction rows generalizing s c1 with
  | nil => exact hs
  | cons row rest ih => exact ih _ (gjRow_nodup c1 hs)

theorem gjBuild_mono {rows : List (List ℕ)} {s : List (ℕ × ℕ)} {p : ℕ × ℕ} (c1 : ℕ)
    (h : p ∈ s) : p ∈ gjBuild c1 rows s := by
  induction rows generalizing s c1 with
  | nil => exact h
  | cons row rest ih => exact ih _ (gjRow_mono c1 h)

theorem mem_gjBuild {rows : List (List ℕ)} {s : List (ℕ × ℕ)} {i ns : ℕ} (c1 : ℕ)
    (h : ns ∈ (rows[i]?).getD []) (hne : c1 + i ≠ ns) :
    (if c1 + i < ns then (c1 + i, ns) else (ns, c1 + i)) ∈ gjBuild c1 rows s := by
  induction rows generalizing s c1 i with
  | nil => simp at h
  | cons row rest ih =>
      cases i with
      | zero =>
          simp only [List.getElem?_cons_zero, Option.getD_some] at h
          have hz : c1 + 0 = c1 := rfl
          rw [hz] at hne ⊢
          show _ ∈ gjBuild (c1 + 1) rest (gjRow c1 row s)
          exact gjBuild_mono _ (mem_gjRow h hne)
      | succ j =>
          simp only [List.getElem?_cons_succ] at h
          have harith : c1 + (j + 1) = c1 + 1 + j := by omega
          rw [harith]
          exact ih (c1 + 1) h (by omega)

/-- C4: every entry of `gap_jun_i` built by `near_neigh` is a pair `(i, j)`
with `i < j` (hence never a self-pair), and no two entries of the list are
equal: each unordered cell pair appears at most once. -/
theorem C4_theorem (cell_nn : List (List ℕ)) (p : ℕ × ℕ)
    (hp : p ∈ near_neigh_gap_jun cell_nn) :
    p.1 < p.2 ∧ (near_neigh_gap_jun cell_nn).Nodup :=
  ⟨gjBuild_lt 0 (by simp) p hp, gjBuild_nodup 0 List.nodup_nil⟩

/-- Witness for C4 on the KD-tree output of two mutually neighbouring cells. -/
theorem C4_witness :
    ((0, 1) ∈ near_neigh_gap_jun [[0, 1], [0, 1]]) ∧
      ((0, 1).1 < (0, 1).2 ∧ (near_neigh_gap_jun [[0, 1], [0, 1]]).Nodup) :=
  ⟨by decide, C4_theorem [[0, 1], [0, 1]] (0, 1) (by decide)⟩

/-- C10: every lookup `gap_jun_i.index([i, ns])` (for `i < ns`) or
`gap_jun_i.index([ns, i])` (for `i > ns`) performed while building
`cell2GJ_map` succeeds: the canonical pair of any non-self KD-tree neighbour
`ns` of cell `i` was inserted into the gap-junction set beforehand, so the
`ValueError` branch of `list.index` is unreachable. -/
theorem C10_theorem (cell_nn : List (List ℕ)) (i ns : ℕ)
    (hns : ns ∈ (cell_nn[i]?).getD []) (hne : i ≠ ns) :
    (pyIndex (near_neigh_gap_jun cell_nn)
      (if i < ns then (i, ns) else (ns, i))).isSome := by
  apply pyIndex_isSome_of_mem
  have := @mem_gjBuild cell_nn [] i ns 0 hns (by omega)
  simpa using this

/-- Witness for C10: the lookup for neighbour 1 of cell 0 succeeds. -/
theorem C10_witness :
    (1 ∈ (([[0, 1], [0, 1]] : List (List ℕ))[0]?).getD [] ∧ (0 : ℕ) ≠ 1) ∧
      (pyIndex (near_neigh_gap_jun [[0, 1], [0, 1]])
        (if 0 < 1 then ((0 : ℕ), (1 : ℕ)) else (1, 0))).isSome :=
  ⟨by decide, C10_theorem [[0, 1], [0, 1]] 0 1 (by decide) (by decide)⟩

/-- One edge inspection of the ECM-segment loop in `World.cellGeo`: the two
endpoints are located in the flat vertex array by `list.index`, their boundary
flags are read off `bmask_ecm`, and unless both endpoints are flagged (or the
two indices coincide) the index pair is inserted into the `ecm_edge_ind` set
in `(min, max)` order. -/
def ecmStep (flat : List Point) (bmask : ℕ → Bool) (pq : Point × Point)
    (s : List (ℕ × ℕ)) : List (ℕ × ℕ) :=
  if (bmask (pyIndexD flat pq.1) = false ∧ bmask (pyIndexD flat pq.2) = false)
      ∨ (bmask (pyIndexD flat pq.1) = false ∧ bmask (pyIndexD flat pq.2) = true)
      ∨ (bmask (pyIndexD flat pq.1) = true ∧ bmask (pyIndexD flat pq.2) = false) then
    if pyIndexD flat pq.1 < pyIndexD flat pq.2 then
      insertIfAbsent s (pyIndexD flat pq.1, pyIndexD flat pq.2)
    else if pyIndexD flat pq.2 < pyIndexD flat pq.1 then
      insertIfAbsent s (pyIndexD flat pq.2, pyIndexD flat pq.1)
    else s
  else s

/-- The loop of `World.cellGeo` over the edges of one ecm polygon. -/
def ecmRow (flat : List Point) (bmask : ℕ → Bool) :
    List (Point × Point) → List (ℕ × ℕ) → List (ℕ × ℕ)
  | [], s => s
  | pq :: rest, s => ecmRow flat bmask rest (ecmStep flat bmask pq s)

/-- The loop of `World.cellGeo` over all ecm polygons. -/
def ecmPolys (flat : List Point) (bmask : ℕ → Bool) :
    List Poly → List (ℕ × ℕ) → List (ℕ × ℕ)
  | [], s => s
  | poly :: rest, s => ecmPolys flat bmask rest (ecmRow flat bmask (polyEdges poly) s)

/-- Embedding of the construction of `self.ecm_edges_i` in `World.cellGeo`:
the flat vertex list is the flattening of `ecm_verts` (exactly how
`ecm_verts_flat` was rebuilt by `clean_ecm`), and `bmask` is the boundary mask
produced by `boundTag`. -/
def cellGeo_ecm_edges (bmask : ℕ → Bool) (ecm_verts : List Poly) : List (ℕ × ℕ) :=
  ecmPolys (flattenPts ecm_verts) bmask ecm_verts []

theorem ecmStep_forall {P : ℕ × ℕ → Prop} {s : List (ℕ × ℕ)} {flat : List Point}
    {bmask : ℕ → Bool} (pq : Point × Point) (hs : ∀ p ∈ s, P p)
    (hnew : ∀ a b : ℕ, a < b → ¬(bmask a = true ∧ bmask b = true) → P (a, b)) :
    ∀ p ∈ ecmStep flat bmask pq s, P p := by
  unfold ecmStep
  split
  · split
    · refine insertIfAbsent_forall hs (hnew _ _ (by assumption) ?_)
      rintro ⟨hf1, hf2⟩
      simp_all
    · split
      · refine insertIfAbsent_forall hs (hnew _ _ (by assumption) ?_)
        rintro ⟨hf1, hf2⟩
        simp_all
      · exact hs
  · exact hs

theorem ecmStep_nodup {s : List (ℕ × ℕ)} {flat : List Point} {bmask : ℕ → Bool}
    (pq : Point × Point) (hs : s.Nodup) : (ecmStep flat bmask pq s).Nodup := by
  unfold ecmStep
  split
  · split
    · exact insertIfAbsent_nodup _ hs
    · split
      · exact insertIfAbsent_nodup _ hs
      · exact hs
  · exact hs

theorem ecmStep_mono {s : List (ℕ × ℕ)} {flat : List Point} {bmask : ℕ → Bool}
    {p : ℕ × ℕ} (pq : Point × Point) (h : p ∈ s) : p ∈ ecmStep flat bmask pq s := by
  unfold ecmStep
  split
  · split
    · exact mem_insertIfAbsent_of_mem _ h
    · split
      · exact mem_insertIfAbsent_of_mem _ h
      · exact h
  · exact h

theorem ecmRow_forall {P : ℕ × ℕ → Prop} {s : List (ℕ × ℕ)} {flat : List Point}
    {bmask : ℕ → Bool} {row : List (Point × Point)} (hs : ∀ p ∈ s, P p)
    (hnew : ∀ a b : ℕ, a < b → ¬(bmask a = true ∧ bmask b = true) → P (a, b)) :
    ∀ p ∈ ecmRow flat bmask row s, P p := by
  induction row generalizing s with
  | nil => exact hs
  | cons pq rest ih => exact ih (ecmStep_forall pq hs hnew)

theorem ecmRow_nodup {s : List (ℕ × ℕ)} {flat : List Point} {bmask : ℕ → Bool}
    {row : List (Point × Point)} (hs : s.Nodup) : (ecmRow flat bmask row s).Nodup := by
  induction row generalizing s with
  | nil => exact hs
  | cons pq rest ih => exact ih (ecmStep_nodup pq hs)

theorem ecmRow_mono {s : List (ℕ × ℕ)} {flat : List Point} {bmask : ℕ → Bool}
    {row : List (Point × Point)} {p : ℕ × ℕ} (h : p ∈ s) : p ∈ ecmRow flat bmask row s := by
  induction row generalizing s with
  | nil => exact h
  | cons pq rest ih => exact ih (ecmStep_mono pq h)

theorem mem_ecmRow {s : List (ℕ × ℕ)} {flat : List Point} {bmask : ℕ → Bool}
    {row : List (Point × Point)} {pq : Point × Point} (hpq : pq ∈ row)
    (hne : pyIndexD flat pq.1 ≠ pyIndexD flat pq.2)
    (hflag : ¬(bmask (pyIndexD flat pq.1) = true ∧ bmask (pyIndexD flat pq.2) = true)) :
    (if pyIndexD flat pq.1 < pyIndexD flat pq.2
      then (pyIndexD flat pq.1, pyIndexD flat pq.2)
      else (pyIndexD flat pq.2, pyIndexD flat pq.1)) ∈ ecmRow flat bmask row s := by
  induction row generalizing s with
  | nil => simp at hpq
  | cons pq0 rest ih =>
      rcases List.mem_cons.1 hpq with h | h
      · subst h
        show _ ∈ ecmRow flat bmask rest (ecmStep flat bmask pq s)
        apply ecmRow_mono
        have hcond : (bmask (pyIndexD flat pq.1) = false ∧ bmask (pyIndexD flat pq.2) = false)
            ∨ (bmask (pyIndexD flat pq.1) = false ∧ bmask (pyIndexD flat pq.2) = true)
            ∨ (bmask (pyIndexD flat pq.1) = true ∧ bmask (pyIndexD flat pq.2) = false) := by
          rcases Bool.eq_false_or_eq_true (bmask (pyIndexD flat pq.1)) with h1 | h1 <;>
            rcases Bool.eq_false_or_eq_true (bmask (pyIndexD flat pq.2)) with h2 | h2 <;>
            simp_all
        unfold ecmStep
        rw [if_pos hcond]
        split
        · exact mem_insertIfAbsent_self _ _
        · rw [if_pos (by omega)]
          exact mem_insertIfAbsent_self _ _
      · exact ih h

theorem ecmPolys_forall {P : ℕ × ℕ → Prop} {s : List (ℕ × ℕ)} {flat : List Point}
    {bmask : ℕ → Bool} {polys : List Poly} (hs : ∀ p ∈ s, P p)
    (hnew : ∀ a b : ℕ, a < b → ¬(bmask a = true ∧ bmask b = true) → P (a, b)) :
    ∀ p ∈ ecmPolys flat bmask polys s, P p := by
  induction polys generalizing s with
  | nil => exact hs
  | cons poly rest ih => exact ih (ecmRow_forall hs hnew)

theorem ecmPolys_nodup {s : List (ℕ × ℕ)} {flat : List Point} {bmask : ℕ → Bool}
    {polys : List Poly} (hs : s.Nodup) : (ecmPolys flat bmask polys s).Nodup := by
  induction polys generalizing s with
  | nil => exact hs
  | cons poly rest ih => exact ih (ecmRow_nodup hs)

theorem ecmPolys_mono {s : List (ℕ × ℕ)} {flat : List Point} {bmask : ℕ → Bool}
    {polys : List Poly} {p : ℕ × ℕ} (h : p ∈ s) : p ∈ ecmPolys flat bmask polys s := by
  induction polys generalizing s with
  | nil => exact h
  | cons poly rest ih => exact ih (ecmRow_mono h)

theorem mem_ecmPolys {s : List (ℕ × ℕ)} {flat : List Point} {bmask : ℕ → Bool}
    {polys : List Poly} {poly : Poly} {pq : Point × Point} (hpoly : poly ∈ polys)
    (hpq : pq ∈ polyEdges poly)
    (hne : pyIndexD flat pq.1 ≠ pyIndexD flat pq.2)
    (hflag : ¬(bmask (pyIndexD flat pq.1) = true ∧ bmask (pyIndexD flat pq.2) = true)) :
    (if pyIndexD flat pq.1 < pyIndexD flat pq.2
      then (pyIndexD flat pq.1, pyIndexD flat pq.2)
      else (pyIndexD flat pq.2, pyIndexD flat pq.1)) ∈ ecmPolys flat bmask polys s := by
  induction polys generalizing s with
  | nil => simp at hpoly
  | cons poly0 rest ih =>
      rcases List.mem_cons.1 hpoly with h | h
      · subst h
        show _ ∈ ecmPolys flat bmask rest (ecmRow flat bmask (polyEdges poly) s)
        exact ecmPolys_mono (mem_ecmRow hpq hne hflag)
      · exact ih h

/-- C3: in `cellGeo`, (a) the `ecm_edges_i` list contains no duplicate index
pair and every pair is stored in canonical `(min, max)` order with no
self-pair and never both endpoints boundary-flagged; (b) an ecm polygon edge
whose two flat indices differ and of which *exactly one* endpoint is
boundary-flagged is retained: its canonical pair is a member of the list. -/
theorem C3_theorem (bmask : ℕ → Bool) (ecm_verts : List Poly) (pr : ℕ × ℕ)
    (poly : Poly) (pq : Point × Point)
    (hpr : pr ∈ cellGeo_ecm_edges bmask ecm_verts)
    (hpoly : poly ∈ ecm_verts) (hpq : pq ∈ polyEdges poly)
    (hne : pyIndexD (flattenPts ecm_verts) pq.1 ≠ pyIndexD (flattenPts ecm_verts) pq.2)
    (hflag : bmask (pyIndexD (flattenPts ecm_verts) pq.1)
      ≠ bmask (pyIndexD (flattenPts ecm_verts) pq.2)) :
    (pr.1 < pr.2 ∧ ¬(bmask pr.1 = true ∧ bmask pr.2 = true)) ∧
    (cellGeo_ecm_edges bmask ecm_verts).Nodup ∧
    (if pyIndexD (flattenPts ecm_verts) pq.1 < pyIndexD (flattenPts ecm_verts) pq.2
      then (pyIndexD (flattenPts ecm_verts) pq.1, pyIndexD (flattenPts ecm_verts) pq.2)
      else (pyIndexD (flattenPts ecm_verts) pq.2, pyIndexD (flattenPts ecm_verts) pq.1))
      ∈ cellGeo_ecm_edges bmask ecm_verts := by
  refine ⟨?_, ecmPolys_nodup List.nodup_nil,
    mem_ecmPolys hpoly hpq hne (fun hc => hflag (hc.1.trans hc.2.symm))⟩
  exact @ecmPolys_forall
    (fun p => p.1 < p.2 ∧ ¬(bmask p.1 = true ∧ bmask p.2 = true))
    [] (flattenPts ecm_verts) bmask ecm_verts
    (by simp) (fun a b hab hflags => ⟨hab, hflags⟩) pr hpr

/-- Two unit squares sharing the vertical edge from (1,0) to (1,1), used to
witness C3. -/
def ecmC3 : List Poly :=
  [[(0, 0), (1, 0), (1, 1), (0, 1)], [(1, 0), (2, 0), (2, 1), (1, 1)]]

/-- A boundary mask for the C3 witness flagging only flat vertex 1 = (1,0). -/
def bmaskC3 : ℕ → Bool := fun k => k == 1

/-- The shared edge of the two squares of the C3 witness, an edge of the
first polygon. -/
def sharedEdgeC3 : Point × Point := ((1, 0), (1, 1))

/-- Witness for C3: on two squares sharing an edge whose lower endpoint (flat
index 1) is the only boundary-flagged vertex, the shared edge has distinct
flat indices 1 and 2, exactly one flagged endpoint, and its canonical pair
(1, 2) is retained; the resulting edge list is duplicate-free and canonical. -/
theorem C3_witness :
    (((1, 2) ∈ cellGeo_ecm_edges bmaskC3 ecmC3) ∧
      ([(0, 0), (1, 0), (1, 1), (0, 1)] ∈ ecmC3) ∧
      (sharedEdgeC3 ∈ polyEdges [(0, 0), (1, 0), (1, 1), (0, 1)]) ∧
      (pyIndexD (flattenPts ecmC3) sharedEdgeC3.1 ≠ pyIndexD (flattenPts ecmC3) sharedEdgeC3.2) ∧
      (bmaskC3 (pyIndexD (flattenPts ecmC3) sharedEdgeC3.1)
        ≠ bmaskC3 (pyIndexD (flattenPts ecmC3) sharedEdgeC3.2))) ∧
    (((1, 2).1 < (1, 2).2 ∧ ¬(bmaskC3 (1, 2).1 = true ∧ bmaskC3 (1, 2).2 = true)) ∧
      (cellGeo_ecm_edges bmaskC3 ecmC3).Nodup ∧
      ((if pyIndexD (flattenPts ecmC3) sharedEdgeC3.1 < pyIndexD (flattenPts ecmC3) sharedEdgeC3.2
        then (pyIndexD (flattenPts ecmC3) sharedEdgeC3.1, pyIndexD (flattenPts ecmC3) sharedEdgeC3.2)
        else (pyIndexD (flattenPts ecmC3) sharedEdgeC3.2, pyIndexD (flattenPts ecmC3) sharedEdgeC3.1))
        ∈ cellGeo_ecm_edges bmaskC3 ecmC3)) :=
  ⟨by decide, C3_theorem bmaskC3 ecmC3 (1, 2) [(0, 0), (1, 0), (1, 1), (0, 1)]
    sharedEdgeC3 (by decide) (by decide) (by decide) (by decide) (by decide)⟩


/-- The constants object handed to `World.__init__` (an instance of the
parameters module's value holder): exactly the fields the constructor reads. -/
structure Constants where
  dc : ℚ
  nx : ℕ
  ny : ℕ
  ac : ℚ
  nl : ℚ
  wsx : ℚ
  wsy : ℚ
  search_d : ℚ
  scale_cell : ℚ
  cell_sides : ℕ
  scale_alpha : ℚ
  cell_height : ℚ
  cell_space : ℚ

/-- The attributes `World.__init__` stores. -/
structure WorldParams where
  d_cell : ℚ
  nx : ℕ
  ny : ℕ
  ac : ℚ
  nl : ℚ
  wsx : ℚ
  wsy : ℚ
  search_d : ℚ
  sf : ℚ
  cell_sides : ℕ
  sa : ℚ
  cell_height : ℚ
  cell_space : ℚ

/-- Embedding of `World.__init__`: the constants are copied onto the instance
one by one; no check of any kind is performed, so construction is a total
function. -/
def World_init (c : Constants) : WorldParams :=
  { d_cell := c.dc
    nx := c.nx
    ny := c.ny
    ac := c.ac
    nl := c.nl
    wsx := c.wsx
    wsy := c.wsy
    search_d := c.search_d
    sf := c.scale_cell
    cell_sides := c.cell_sides
    sa := c.scale_alpha
    cell_height := c.cell_height
    cell_space := c.cell_space }

/-- `np.linspace(start, stop, num)`: `num` evenly spaced samples from `start`
to `stop` inclusive. -/
def linspace (start stop : ℚ) (num : ℕ) : List ℚ :=
  if num = 0 then []
  else if num = 1 then [start]
  else (List.range num).map (fun i => start + (stop - start) * i / (num - 1))

/-- The data `World.makeSeeds` creates. -/
structure Seeds where
  xypts : List Point
  xmin : ℚ
  xmax : ℚ
  ymin : ℚ
  ymax : ℚ
  centre : Point

/-- The noisy lattice grid of `World.makeSeeds`, flattened row by row exactly
as `np.vstack((x_2d.ravel(), y_2d.ravel())).T` does.  The uniform random
matrices of `np.random.rand(ny, nx)` are the inputs `rx`, `ry`. -/
def seedRows (w : WorldParams) (rx ry : ℕ → ℕ → ℚ) : List (List Point) :=
  let x_v := linspace 0 ((((w.nx : ℤ) - 1 : ℤ) : ℚ) * (w.d_cell + w.ac)) w.nx
  let y_v := linspace 0 ((((w.ny : ℤ) - 1 : ℤ) : ℚ) * (w.d_cell + w.ac)) w.ny
  (List.range w.ny).map (fun r => (List.range w.nx).map (fun c =>
    ((x_v[c]?).getD 0 + w.nl * w.d_cell * (rx r c - 1 / 2),
      (y_v[r]?).getD 0 + w.nl * w.d_cell * (ry r c - 1 / 2))))

/-- Embedding of `World.makeSeeds`: builds the jittered lattice and the world
bounds/centre from the perturbed points.  The only failing operation in the
method is `np.min`/`np.max` on a zero-size grid, which numpy rejects; every
non-empty grid succeeds, whatever the parameter values. -/
def makeSeeds (w : WorldParams) (rx ry : ℕ → ℕ → ℚ) : Except String Seeds :=
  match (seedRows w rx ry).join with
  | [] => .error "zero-size array to reduction operation which has no identity"
  | p :: ps => .ok
      { xypts := p :: ps
        xmin := (ps.map Prod.fst).foldl min p.1
        xmax := (ps.map Prod.fst).foldl max p.1
        ymin := (ps.map Prod.snd).foldl min p.2
        ymax := (ps.map Prod.snd).foldl max p.2
        centre := centroid (p :: ps) }

/-- Whether an `Except` finished without raising. -/
def exceptIsOk {ε α : Type} : Except ε α → Bool
  | .ok _ => true
  | .error _ => false

/-- Degenerate constants for the C5 counterexample: cell diameter zero and a
world size (0) smaller than one cell. -/
def cdegC5 : Constants :=
  { dc := 0, nx := 2, ny := 2, ac := 1, nl := 0, wsx := 0, wsy := 0,
    search_d := 1, scale_cell := 1 / 2, cell_sides := 4, scale_alpha := 1,
    cell_height := 1, cell_space := 0 }

/-- C5 counterexample: with a zero cell diameter and a zero world size — both
degenerate in the sense of the claim — `World.__init__` stores the parameters
and `makeSeeds` builds the seed lattice successfully; no error is raised
before (or during) lattice generation. -/
theorem C5_counterexample :
    (World_init cdegC5).d_cell = 0 ∧
      exceptIsOk (makeSeeds (World_init cdegC5) (fun _ _ => 0) (fun _ _ => 0)) = true := by
  constructor
  · rfl
  · decide

/-- C5 (amended): no degenerate-parameter rejection exists: `World.__init__`
copies every constant unchanged (in particular a zero or negative diameter is
stored as-is), and `makeSeeds` succeeds for *any* parameter values whenever
the lattice has at least one site in each direction; nothing is validated
before lattice generation. -/
theorem C5_theorem (c : Constants) (rx ry : ℕ → ℕ → ℚ)
    (hx : 1 ≤ c.nx) (hy : 1 ≤ c.ny) :
    (World_init c).d_cell = c.dc ∧ (World_init c).wsx = c.wsx ∧
      exceptIsOk (makeSeeds (World_init c) rx ry) = true := by
  refine ⟨rfl, rfl, ?_⟩
  unfold makeSeeds
  have hne : (seedRows (World_init c) rx ry).join ≠ [] := by
    intro hnil
    rw [List.join_eq_nil_iff] at hnil
    have hlen : ∀ row ∈ seedRows (World_init c) rx ry, row.length = c.nx := by
      intro row hrow
      unfold seedRows at hrow
      rw [List.mem_map] at hrow
      obtain ⟨r, _, hr⟩ := hrow
      rw [← hr]
      simp only [List.length_map, List.length_range]
      rfl
    have hrows_len : (seedRows (World_init c) rx ry).length = c.ny := by
      unfold seedRows
      simp only [List.length_map, List.length_range]
      rfl
    have hnonnil : seedRows (World_init c) rx ry ≠ [] := by
      intro hh
      rw [hh] at hrows_len
      simp at hrows_len
      omega
    obtain ⟨row, hrow⟩ := List.exists_mem_of_ne_nil _ hnonnil
    have h1 := hnil row hrow
    have h2 := hlen row hrow
    rw [h1] at h2
    simp at h2
    omega
  cases hjoin : (seedRows (World_init c) rx ry).join with
  | nil => exact absurd hjoin hne
  | cons p ps => rfl

/-- Witness for C5: a parameter set with negative diameter and a 1 by 1
lattice is accepted end to end. -/
theorem C5_witness :
    ((1 : ℕ) ≤ (cdegC5.nx) ∧ (1 : ℕ) ≤ (cdegC5.ny)) ∧
      ((World_init cdegC5).d_cell = cdegC5.dc ∧ (World_init cdegC5).wsx = cdegC5.wsx ∧
        exceptIsOk (makeSeeds (World_init cdegC5) (fun _ _ => 1) (fun _ _ => 1)) = true) :=
  ⟨by decide, C5_theorem cdegC5 (fun _ _ => 1) (fun _ _ => 1) (by decide) (by decide)⟩

/-- Numpy-style indexing of the Voronoi vertex array by a possibly negative
index: `-1` denotes the last vertex, as in Python sequence indexing. -/
def getVert (verts : List Point) (i : ℤ) : Point :=
  if 0 ≤ i then (verts[i.toNat]?).getD (0, 0)
  else (verts[verts.length - (-i).toNat]?).getD (0, 0)

/-- One candidate region of the `vorclose == 'circle'` branch of
`World.makeVoronoi`: regions shorter than `cell_sides` are skipped; a region
with any vertex outside the crop path is skipped (`inpath.all() == False`);
otherwise the region is clipped (`tb.clip`, a parameter here since the
toolbox source is not in the snapshot) and kept only when the clipped result
still has at least `cell_sides` vertices. -/
def keepRegion (cell_sides : ℕ) (contains : Point → Bool)
    (clip : List Point → List Point → List Point) (crop_ptsa : List Point)
    (vertices : List Point) (poly_ind : List ℤ) : Option Poly :=
  if cell_sides ≤ poly_ind.length then
    if (poly_ind.map (getVert vertices)).all contains = false then none
    else
      if cell_sides ≤ (clip (poly_ind.map (getVert vertices)) crop_ptsa).length then
        some (clip (poly_ind.map (getVert vertices)) crop_ptsa)
      else none
  else none

/-- Embedding of the `vorclose == 'circle'` tail of `World.makeVoronoi`:
`ecm_verts` starts empty and surviving clipped regions are appended; the
branch contains no `raise`, so the result is always `ok`. -/
def makeVoronoi_circle (cell_sides : ℕ) (contains : Point → Bool)
    (clip : List Point → List Point → List Point) (crop_ptsa : List Point)
    (vertices : List Point) (regions : List (List ℤ)) : Except String (List Poly) :=
  .ok (regions.filterMap (keepRegion cell_sides contains clip crop_ptsa vertices))

/-- C6 counterexample: with `cell_sides = 4` and a single triangular candidate
region, clipping rejects every region, and `makeVoronoi` returns an empty
`ecm_verts` list instead of raising. -/
theorem C6_counterexample :
    makeVoronoi_circle 4 (fun _ => true) (fun p _ => p) []
      [(0, 0), (1, 0), (0, 1)] [[0, 1, 2]] = .ok [] := rfl

/-- C6 (amended): `makeVoronoi` never raises; in particular, when every
candidate region is rejected by the clipping pass it silently produces the
empty `ecm_verts` list. -/
theorem C6_theorem (cell_sides : ℕ) (contains : Point → Bool)
    (clip : List Point → List Point → List Point) (crop_ptsa : List Point)
    (vertices : List Point) (regions : List (List ℤ))
    (h : ∀ r ∈ regions, keepRegion cell_sides contains clip crop_ptsa vertices r = none) :
    makeVoronoi_circle cell_sides contains clip crop_ptsa vertices regions = .ok [] := by
  unfold makeVoronoi_circle
  rw [List.filterMap_eq_nil.2 h]

/-- Witness for C6: a lone degenerate (two-vertex) region is rejected and the
empty cluster is returned without an error. -/
theorem C6_witness :
    (∀ r ∈ [[0, 1]], keepRegion 5 (fun _ => false) (fun p _ => p) []
      ([(0, 0), (2, 0)] : List Point) r = none) ∧
      makeVoronoi_circle 5 (fun _ => false) (fun p _ => p) []
        ([(0, 0), (2, 0)] : List Point) [[0, 1]] = .ok [] :=
  ⟨by decide, C6_theorem 5 (fun _ => false) (fun p _ => p) [] [(0, 0), (2, 0)]
    [[0, 1]] (by decide)⟩


/-- Embedding of `World.boundTag`: the concave hull of the point array (the
deterministic output of `tb.alpha_shape` on those points, passed explicitly)
is flattened into `bflags`, and `bmask` starts as a zero array of the same
length as `points` and is set to 1 at every flagged index. -/
def boundTag (points : List Point) (con_hull : List (List ℕ)) : List ℕ × List ℚ :=
  (con_hull.join,
    con_hull.join.foldl (fun m k => m.set k 1) (List.replicate points.length (0 : ℚ)))

theorem foldl_set_length (ks : List ℕ) (l : List ℚ) :
    (ks.foldl (fun m k => m.set k (1 : ℚ)) l).length = l.length := by
  induction ks generalizing l with
  | nil => rfl
  | cons k rest ih => simp [ih, List.length_set]

/-- C9: `boundTag` is idempotent: it is a pure function of the point array
(and of the deterministic concave hull computed from it), so two calls on the
unchanged array return identical `bflags` and identical `bmask`; moreover the
mask always has exactly one entry per point. -/
theorem C9_theorem (points : List Point) (con_hull : List (List ℕ)) :
    (boundTag points con_hull).1 = (boundTag points con_hull).1 ∧
    (boundTag points con_hull).2 = (boundTag points con_hull).2 ∧
    (boundTag points con_hull).2.length = points.length := by
  refine ⟨rfl, rfl, ?_⟩
  unfold boundTag
  rw [foldl_set_length, List.length_replicate]

theorem qsum_map_add {α : Type} (l : List α) (f g : α → ℚ) :
    (l.map (fun x => f x + g x)).sum = (l.map f).sum + (l.map g).sum := by
  induction l with
  | nil => simp
  | cons x xs ih =>
      simp [ih]
      ring

theorem qsum_map_mul {α : Type} (a : ℚ) (l : List α) (f : α → ℚ) :
    (l.map (fun x => a * f x)).sum = a * (l.map f).sum := by
  induction l with
  | nil => simp
  | cons x xs ih =>
      simp [ih]
      ring

theorem qsum_map_sub {α : Type} (l : List α) (f g : α → ℚ) :
    (l.map (fun x => f x - g x)).sum = (l.map f).sum - (l.map g).sum := by
  induction l with
  | nil => simp
  | cons x xs ih =>
      simp [ih]
      ring

theorem qsum_pos {l : List ℚ} (h0 : ∀ x ∈ l, 0 ≤ x) (h1 : ∃ x ∈ l, 0 < x) :
    0 < l.sum := by
  induction l with
  | nil => simp at h1
  | cons x xs ih =>
      rw [List.sum_cons]
      rcases h1 with ⟨y, hy, hypos⟩
      rcases List.mem_cons.1 hy with hyx | hyx
      · have hxs : 0 ≤ xs.sum := List.sum_nonneg (fun z hz => h0 z (List.mem_cons_of_mem _ hz))
        subst hyx
        linarith
      · have hx : 0 ≤ x := h0 x (List.mem_cons_self _ _)
        have := ih (fun z hz => h0 z (List.mem_cons_of_mem _ hz)) ⟨y, hyx, hypos⟩
        linarith

theorem rotR_perm {α : Type} (l : List α) : (rotR l).Perm l := by
  unfold rotR
  cases hl : l.getLast? with
  | none =>
      rw [List.getLast?_eq_none_iff] at hl
      rw [hl]
  | some x =>
      have hne : l ≠ [] := by
        intro h
        rw [h] at hl
        simp at hl
      have hx : l.getLast hne = x := by
        rw [List.getLast?_eq_getLast l hne] at hl
        exact Option.some_inj.1 hl
      have hperm : (x :: l.dropLast).Perm (l.dropLast ++ [x]) :=
        (List.perm_append_singleton x l.dropLast).symm
      have heq : l.dropLast ++ [x] = l := by
        rw [← hx, List.dropLast_append_getLast hne]
      rw [heq] at hperm
      exact hperm


/-- The signed (shoelace) area of a polygon: half the cyclic sum of the cross
products of consecutive vertices.  Positive for counter-clockwise vertex
order, so its sign captures the winding order of the polygon. -/
def signedArea (poly : Poly) : ℚ :=
  ((polyEdges poly).map (fun pq => cross pq.1 pq.2)).sum / 2

/-- Decidable strict-convexity certificate for a counter-clockwise polygon:
for every edge, all vertices lie on the left closed half-plane of the edge and
at least one lies strictly left. -/
def convexCCWb (poly : Poly) : Bool :=
  (polyEdges poly).all (fun pq =>
    (poly.all (fun v => decide (0 ≤ cross (pq.2 - pq.1) (v - pq.1))))
      && (poly.any (fun v => decide (0 < cross (pq.2 - pq.1) (v - pq.1)))))

/-- Decidable strict containment of every vertex of `inner` in the interior of
the counter-clockwise convex polygon `outer`: strictly left of every edge. -/
def strictlyInsideb (outer inner : Poly) : Bool :=
  (polyEdges outer).all (fun pq =>
    inner.all (fun w => decide (0 < cross (pq.2 - pq.1) (w - pq.1))))

theorem rotR_map {α β : Type} (f : α → β) (l : List α) :
    rotR (l.map f) = (rotR l).map f := by
  unfold rotR
  rw [List.getLast?_map]
  cases l.getLast? with
  | none => rfl
  | some x => simp [List.map_dropLast]

theorem polyEdges_map (f : Point → Point) (poly : Poly) :
    polyEdges (poly.map f) = (polyEdges poly).map (fun pq => (f pq.1, f pq.2)) := by
  unfold polyEdges
  rw [rotR_map, List.zip_map]
  rfl

theorem cross_sub_right (u v w : Point) : cross u (v - w) = cross u v - cross u w := by
  simp only [cross, Prod.fst_sub, Prod.snd_sub]
  ring

theorem qsum_map_const {α : Type} (l : List α) (a : ℚ) :
    (l.map (fun _ => a)).sum = (l.length : ℚ) * a := by
  induction l with
  | nil => simp
  | cons x xs ih =>
      simp [ih]
      ring

theorem centroid_cross (poly : Poly) (u : Point) (hne : poly ≠ []) :
    (poly.length : ℚ) * cross u (centroid poly) = (poly.map (cross u)).sum := by
  have hn : ((poly.length : ℚ)) ≠ 0 := by
    simp only [ne_eq, Nat.cast_eq_zero, List.length_eq_zero]
    exact hne
  have hr : (poly.map (cross u)).sum
      = u.1 * (poly.map Prod.snd).sum - u.2 * (poly.map Prod.fst).sum := by
    have h1 : (poly.map (cross u)).sum
        = (poly.map (fun v => u.1 * v.2 - u.2 * v.1)).sum := rfl
    rw [h1, qsum_map_sub, qsum_map_mul, qsum_map_mul]
  rw [hr]
  simp only [centroid, qmean, cross]
  field_simp

theorem centroid_cross_pos (poly : Poly) (u p : Point) (hne : poly ≠ [])
    (hall : ∀ v ∈ poly, 0 ≤ cross u (v - p))
    (hex : ∃ v ∈ poly, 0 < cross u (v - p)) :
    0 < cross u (centroid poly - p) := by
  have hsum : (poly.map (fun v => cross u (v - p))).sum
      = (poly.length : ℚ) * cross u (centroid poly - p) := by
    have h1 : (poly.map (fun v => cross u (v - p))).sum
        = (poly.map (fun v => cross u v - cross u p)).sum := by
      apply congrArg
      apply List.map_congr_left
      intro v _
      exact cross_sub_right u v p
    rw [h1, qsum_map_sub, qsum_map_const, ← centroid_cross poly u hne, cross_sub_right]
    ring
  have hpos : 0 < (poly.map (fun v => cross u (v - p))).sum := by
    apply qsum_pos
    · intro x hx
      rw [List.mem_map] at hx
      obtain ⟨v, hv, hvx⟩ := hx
      exact hvx ▸ hall v hv
    · obtain ⟨v, hv, hvpos⟩ := hex
      exact ⟨cross u (v - p), List.mem_map_of_mem _ hv, hvpos⟩
  rw [hsum] at hpos
  have hn : (0 : ℚ) < (poly.length : ℚ) := by
    have : poly.length ≠ 0 := by
      simp only [ne_eq, List.length_eq_zero]
      exact hne
    exact_mod_cast Nat.pos_of_ne_zero this
  by_contra hle
  push_neg at hle
  nlinarith

theorem cross_scaled (u p c v : Point) (sf : ℚ) :
    cross u ((sf • (v - c) + c) - p)
      = (1 - sf) * cross u (c - p) + sf * cross u (v - p) := by
  simp only [cross, Prod.fst_sub, Prod.snd_sub, Prod.fst_add, Prod.snd_add,
    Prod.smul_fst, Prod.smul_snd, smul_eq_mul]
  ring

theorem scaled_inside (poly : Poly) (sf : ℚ) (h0 : 0 < sf) (h1 : sf < 1)
    (hconv : convexCCWb poly = true) :
    strictlyInsideb poly
      (poly.map (fun v => sf • (v - centroid poly) + centroid poly)) = true := by
  rw [strictlyInsideb, List.all_eq_true]
  intro pq hpq
  rw [List.all_eq_true]
  intro w hw
  rw [List.mem_map] at hw
  obtain ⟨v, hv, hwv⟩ := hw
  rw [decide_eq_true_eq, ← hwv, cross_scaled]
  rw [convexCCWb, List.all_eq_true] at hconv
  have hedge := hconv pq hpq
  rw [Bool.and_eq_true, List.all_eq_true, List.any_eq_true] at hedge
  obtain ⟨hall, hex⟩ := hedge
  have hne : poly ≠ [] := by
    obtain ⟨x, hx, _⟩ := hex
    intro hnil
    rw [hnil] at hx
    simp at hx
  have hc : 0 < cross (pq.2 - pq.1) (centroid poly - pq.1) := by
    apply centroid_cross_pos poly _ _ hne
    · intro z hz
      have := hall z hz
      rwa [decide_eq_true_eq] at this
    · obtain ⟨z, hz, hzpos⟩ := hex
      rw [decide_eq_true_eq] at hzpos
      exact ⟨z, hz, hzpos⟩
  have hv0 : 0 ≤ cross (pq.2 - pq.1) (v - pq.1) := by
    have := hall v hv
    rwa [decide_eq_true_eq] at this
  have ht1 : 0 < (1 - sf) * cross (pq.2 - pq.1) (centroid poly - pq.1) :=
    mul_pos (by linarith) hc
  have ht2 : 0 ≤ sf * cross (pq.2 - pq.1) (v - pq.1) :=
    mul_nonneg (le_of_lt h0) hv0
  linarith

theorem polyEdges_snd_sum (poly : Poly) (g : Point → ℚ) :
    ((polyEdges poly).map (fun pq => g pq.2)).sum = (poly.map g).sum := by
  unfold polyEdges
  have h1 : ((rotR poly).zip poly).map (fun pq => g pq.2)
      = (((rotR poly).zip poly).map Prod.snd).map g := by
    rw [List.map_map]
    rfl
  rw [h1, List.map_snd_zip _ _ (le_of_eq (rotR_length poly).symm)]

theorem polyEdges_fst_sum (poly : Poly) (g : Point → ℚ) :
    ((polyEdges poly).map (fun pq => g pq.1)).sum = (poly.map g).sum := by
  unfold polyEdges
  have h1 : ((rotR poly).zip poly).map (fun pq => g pq.1)
      = (((rotR poly).zip poly).map Prod.fst).map g := by
    rw [List.map_map]
    rfl
  rw [h1, List.map_fst_zip _ _ (le_of_eq (rotR_length poly))]
  exact ((rotR_perm poly).map g).sum_eq

theorem signedArea_scaled (poly : Poly) (sf : ℚ) (c : Point) :
    signedArea (poly.map (fun v => sf • (v - c) + c)) = sf ^ 2 * signedArea poly := by
  unfold signedArea
  rw [polyEdges_map, List.map_map]
  have hpt : ((polyEdges poly).map
        ((fun pq => cross pq.1 pq.2) ∘ (fun pq => (sf • (pq.1 - c) + c, sf • (pq.2 - c) + c)))).sum
      = ((polyEdges poly).map (fun pq => sf ^ 2 * cross pq.1 pq.2
          + sf * (1 - sf) * (cross c pq.2 - cross c pq.1))).sum := by
    apply congrArg
    apply List.map_congr_left
    intro pq _
    simp only [Function.comp, cross, Prod.fst_sub, Prod.snd_sub, Prod.fst_add, Prod.snd_add,
      Prod.smul_fst, Prod.smul_snd, smul_eq_mul]
    ring
  rw [hpt, qsum_map_add, qsum_map_mul, qsum_map_mul, qsum_map_sub]
  rw [polyEdges_snd_sum poly (cross c), polyEdges_fst_sum poly (cross c)]
  ring


/-- C8: `cellVerts` (run as in the pipeline, with `cell_centres` the centroids
from `cell_index`) sends vertex `j` of the ecm polygon of cell `i` to
`cell_centres[i] + sf * (ecm_verts[i][j] - cell_centres[i])`; the scaled
polygon has the same vertex count, its signed (shoelace) area is `sf^2` times
that of the ecm polygon — so for `sf in (0,1)` the winding order is preserved
— and, the ecm polygon being strictly convex counter-clockwise (as Voronoi
regions are), the scaled polygon lies strictly inside it. -/
theorem C8_theorem (sf : ℚ) (ecm : List Poly) (i j : ℕ) (poly : Poly) (v : Point)
    (hp : ecm[i]? = some poly) (hv : poly[j]? = some v)
    (h0 : 0 < sf) (h1 : sf < 1) (hconv : convexCCWb poly = true) :
    ((((cellVerts sf (cell_index ecm) ecm)[i]?).getD [])[j]?
        = some (centroid poly + sf • (v - centroid poly))) ∧
    (((cellVerts sf (cell_index ecm) ecm)[i]?).getD []).length = poly.length ∧
    signedArea (((cellVerts sf (cell_index ecm) ecm)[i]?).getD [])
        = sf ^ 2 * signedArea poly ∧
    (0 < signedArea poly →
      0 < signedArea (((cellVerts sf (cell_index ecm) ecm)[i]?).getD [])) ∧
    strictlyInsideb poly (((cellVerts sf (cell_index ecm) ecm)[i]?).getD []) = true := by
  have hi : i < ecm.length := by
    by_contra hno
    rw [List.getElem?_eq_none (by omega)] at hp
    exact Option.noConfusion hp
  have hc : (cell_index ecm)[i]? = some (centroid poly) := by
    rw [cell_index, List.getElem?_map, hp]
    rfl
  have hkey : ((cellVerts sf (cell_index ecm) ecm)[i]?).getD []
      = poly.map (fun w => sf • (w - centroid poly) + centroid poly) := by
    rw [cellVerts_get sf (cell_index ecm) ecm i (by rw [cell_index_length]; exact hi) hi,
      hp, hc]
    rfl
  rw [hkey]
  refine ⟨?_, by rw [List.length_map], signedArea_scaled poly sf (centroid poly), ?_, ?_⟩
  · rw [List.getElem?_map, hv]
    exact congrArg some (add_comm _ _)
  · intro hpos
    rw [signedArea_scaled poly sf (centroid poly)]
    exact mul_pos (pow_pos h0 2) hpos
  · exact scaled_inside poly sf h0 h1 hconv

/-- The unit square, a strictly convex counter-clockwise Voronoi-style region
used to witness C8. -/
def sqC8 : Poly := [(0, 0), (1, 0), (1, 1), (0, 1)]

/-- Witness for C8 on the unit square with shrink factor 1/2. -/
theorem C8_witness :
    (([sqC8] : List Poly)[0]? = some sqC8 ∧ sqC8[0]? = some ((0 : ℚ), (0 : ℚ)) ∧
      (0 : ℚ) < 1 / 2 ∧ (1 : ℚ) / 2 < 1 ∧ convexCCWb sqC8 = true) ∧
    (((((cellVerts (1 / 2) (cell_index [sqC8]) [sqC8])[0]?).getD [])[0]?
        = some (centroid sqC8 + (1 / 2 : ℚ) • (((0 : ℚ), (0 : ℚ)) - centroid sqC8))) ∧
      (((cellVerts (1 / 2) (cell_index [sqC8]) [sqC8])[0]?).getD []).length = sqC8.length ∧
      signedArea (((cellVerts (1 / 2) (cell_index [sqC8]) [sqC8])[0]?).getD [])
          = (1 / 2 : ℚ) ^ 2 * signedArea sqC8 ∧
      (0 < signedArea sqC8 →
        0 < signedArea (((cellVerts (1 / 2) (cell_index [sqC8]) [sqC8])[0]?).getD [])) ∧
      strictlyInsideb sqC8 (((cellVerts (1 / 2) (cell_index [sqC8]) [sqC8])[0]?).getD [])
        = true) :=
  ⟨⟨rfl, rfl, by norm_num, by norm_num, by norm_num [convexCCWb, polyEdges, rotR, sqC8, cross]⟩,
    C8_theorem (1 / 2) [sqC8] 0 0 sqC8 (0, 0) rfl rfl (by norm_num) (by norm_num)
      (by norm_num [convexCCWb, polyEdges, rotR, sqC8, cross])⟩


/-- The state mutated by the ridge-closing loop of `World.makeVoronoi`: the
scipy Voronoi outputs `vor.vertices`, `vor.ridge_vertices` and `vor.regions`,
with `-1` the sentinel for an unbounded vertex. -/
structure VorState where
  vertices : List Point
  ridge_vertices : List (List ℤ)
  regions : List (List ℤ)

/-- `vor_edge[vor_edge >= 0][0]`: the first non-negative entry of a ridge, the
ridge's finite vertex. -/
def newEdgeOf (ve : List ℤ) : ℤ := (ve.filter (fun x => decide (0 ≤ x))).headD 0

/-- The unit tangent of the two seed points sharing a ridge:
`tang = p1 - p0; tang /= norm(tang)`, with numpy's Euclidean norm `nrm` a
parameter. -/
def unitTang (nrm : Point → ℚ) (p0 p1 : Point) : Point :=
  (1 / nrm (p1 - p0)) • (p1 - p0)

/-- The direction of the synthesized far point:
`np.sign(np.dot(midpoint - cluster_center, norml)) * norml` with
`norml` the 90-degree rotation of the unit tangent. -/
def directionOf (nrm : Point → ℚ) (c p0 p1 : Point) : Point :=
  qsign (dot (midpt (p0, p1) - c) (rot90 (unitTang nrm p0 p1))) • rot90 (unitTang nrm p0 p1)

/-- The synthesized far point
`vor.vertices[new_edge] + direction * self.d_cell`. -/
def farPointOf (nrm : Point → ℚ) (d_cell : ℚ) (c p0 p1 : Point)
    (verts : List Point) (ne : ℤ) : Point :=
  getVert verts ne + d_cell • directionOf nrm c p0 p1

/-- The region patch of the closing loop: when a region contains both the
sentinel `-1` and the ridge's finite vertex, its first `-1` is overwritten
with the index of the new far point (`region[region.index(-1)] = vor_ind`). -/
def patchRegion (ne vi : ℤ) (r : List ℤ) : List ℤ :=
  if (-1 : ℤ) ∈ r ∧ ne ∈ r then r.set (List.indexOf (-1) r) vi else r

/-- The half-plane class of a vector under the `np.arctan2(y, x)` ordering on
`(-pi, pi]`: class 0 is the open lower half plane (angles in `(-pi, 0)`),
class 1 is the non-negative x-axis (angle 0, including the origin, since
`arctan2(0, 0) = 0`), and class 2 is the open upper half plane together with
the negative x-axis (angles in `(0, pi]`). -/
def angClassOf (v : Point) : ℕ :=
  if v.2 < 0 then 0 else if v.2 = 0 ∧ 0 ≤ v.1 then 1 else 2

/-- The `np.arctan2` order on vectors, as used by
`np.argsort(np.arctan2(verts[:,1]-cent[1], verts[:,0]-cent[0]))`: compare
half-plane classes first; within a class the angle order coincides with the
sign of the planar cross product, because two vectors of one class span less
than a half turn. -/
def angLe (u v : Point) : Bool :=
  decide (angClassOf u < angClassOf v)
    || (decide (angClassOf u = angClassOf v) && decide (0 ≤ cross u v))

/-- The re-sort of a region after patching: its vertex indices are reordered
by ascending `arctan2` angle around the centroid of the region's vertices
(counter-clockwise angular order). -/
def sortRegion (verts : List Point) (r : List ℤ) : List ℤ :=
  r.mergeSort (fun a b =>
    angLe (getVert verts a - centroid (r.map (getVert verts)))
      (getVert verts b - centroid (r.map (getVert verts))))

/-- Embedding of the body of the ridge-closing loop of `World.makeVoronoi`
for one ridge `i` with an unbounded vertex, shared by the seed points
`p0, p1`: the far point is synthesized and appended to the vertex array, the
ridge is rewritten to `[new_edge, vor_ind]`, and every non-empty region is
patched (where it contains `-1` together with the finite vertex) and re-sorted
angularly around its centroid, against the extended vertex array. -/
def closeRidge (nrm : Point → ℚ) (d_cell : ℚ) (c p0 p1 : Point) (i : ℕ)
    (st : VorState) : VorState :=
  { vertices := st.vertices ++
      [farPointOf nrm d_cell c p0 p1 st.vertices (newEdgeOf ((st.ridge_vertices[i]?).getD []))]
    ridge_vertices := st.ridge_vertices.set i
      [newEdgeOf ((st.ridge_vertices[i]?).getD []), (st.vertices.length : ℤ)]
    regions := st.regions.map (fun r =>
      if r = [] then r
      else sortRegion
        (st.vertices ++
          [farPointOf nrm d_cell c p0 p1 st.vertices (newEdgeOf ((st.ridge_vertices[i]?).getD []))])
        (patchRegion (newEdgeOf ((st.ridge_vertices[i]?).getD [])) (st.vertices.length : ℤ) r)) }

theorem qsign_mul_nonneg (x : ℚ) : 0 ≤ qsign x * x := by
  unfold qsign
  split
  · nlinarith
  · split
    · simp
    · nlinarith [lt_trichotomy x 0]

theorem dot_smul_left (s : ℚ) (u v : Point) : dot (s • u) v = s * dot u v := by
  simp only [dot, Prod.smul_fst, Prod.smul_snd, smul_eq_mul]
  ring

theorem dot_comm (u v : Point) : dot u v = dot v u := by
  simp only [dot]
  ring

theorem angClass_zero {u : Point} (h : angClassOf u = 0) : u.2 < 0 := by
  unfold angClassOf at h
  split_ifs at h
  assumption

theorem angClass_one {u : Point} (h : angClassOf u = 1) : u.2 = 0 ∧ 0 ≤ u.1 := by
  unfold angClassOf at h
  split_ifs at h with h1 h2
  all_goals try omega
  exact h2

theorem angClass_two {u : Point} (h : angClassOf u = 2) :
    0 ≤ u.2 ∧ (u.2 = 0 → u.1 < 0) := by
  unfold angClassOf at h
  split_ifs at h with h1 h2
  all_goals try omega
  refine ⟨not_lt.1 h1, fun hz => ?_⟩
  by_contra hx
  exact h2 ⟨hz, not_lt.1 hx⟩

theorem angClass_cases (u : Point) :
    angClassOf u = 0 ∨ angClassOf u = 1 ∨ angClassOf u = 2 := by
  unfold angClassOf
  split_ifs <;> simp

theorem cross_trans_lower {u v w : Point} (hu : u.2 < 0) (hv : v.2 < 0) (hw : w.2 < 0)
    (h1 : 0 ≤ cross u v) (h2 : 0 ≤ cross v w) : 0 ≤ cross u w := by
  have hid : v.2 * cross u w = w.2 * cross u v + u.2 * cross v w := by
    simp only [cross]
    ring
  have t1 : w.2 * cross u v ≤ 0 := by nlinarith
  have t2 : u.2 * cross v w ≤ 0 := by nlinarith
  have t3 : v.2 * cross u w ≤ 0 := by rw [hid]; linarith
  by_contra hcon
  push_neg at hcon
  nlinarith

theorem cross_trans_upper {u v w : Point}
    (hu : 0 ≤ u.2 ∧ (u.2 = 0 → u.1 < 0)) (hv : 0 ≤ v.2 ∧ (v.2 = 0 → v.1 < 0))
    (hw : 0 ≤ w.2 ∧ (w.2 = 0 → w.1 < 0))
    (h1 : 0 ≤ cross u v) (h2 : 0 ≤ cross v w) : 0 ≤ cross u w := by
  rcases lt_or_eq_of_le hv.1 with hv2 | hv2
  · have hid : v.2 * cross u w = w.2 * cross u v + u.2 * cross v w := by
      simp only [cross]
      ring
    have t1 : 0 ≤ w.2 * cross u v := mul_nonneg hw.1 h1
    have t2 : 0 ≤ u.2 * cross v w := mul_nonneg hu.1 h2
    by_contra hcon
    push_neg at hcon
    nlinarith
  · have hv1 : v.1 < 0 := hv.2 hv2.symm
    have hcvw : cross v w = v.1 * w.2 := by
      simp only [cross, ← hv2]
      ring
    have hw2 : w.2 = 0 := by nlinarith [hw.1]
    have hw1 : w.1 < 0 := hw.2 hw2
    have hcuw : cross u w = - (u.2 * w.1) := by
      simp only [cross, hw2]
      ring
    rw [hcuw]
    nlinarith [hu.1]

theorem angLe_total (u v : Point) : (angLe u v || angLe v u) = true := by
  unfold angLe
  rcases lt_trichotomy (angClassOf u) (angClassOf v) with h | h | h
  · simp [h]
  · have hcr : cross v u = - cross u v := by
      simp only [cross]
      ring
    rcases le_or_lt 0 (cross u v) with hc | hc
    · simp [h, hc]
    · have : 0 ≤ cross v u := by rw [hcr]; linarith
      simp [h, this]
  · simp [h]

theorem angLe_trans (u v w : Point) (h1 : angLe u v = true) (h2 : angLe v w = true) :
    angLe u w = true := by
  unfold angLe at h1 h2 ⊢
  rw [Bool.or_eq_true, Bool.and_eq_true] at h1 h2
  rw [Bool.or_eq_true, Bool.and_eq_true]
  simp only [decide_eq_true_eq] at h1 h2 ⊢
  rcases h1 with h1 | ⟨h1e, h1c⟩
  · rcases h2 with h2 | ⟨h2e, h2c⟩
    · exact Or.inl (lt_trans h1 h2)
    · exact Or.inl (h2e ▸ h1)
  · rcases h2 with h2 | ⟨h2e, h2c⟩
    · exact Or.inl (h1e ▸ h2)
    · refine Or.inr ⟨h1e.trans h2e, ?_⟩
      rcases angClass_cases u with hk | hk | hk
      · exact cross_trans_lower (angClass_zero hk) (angClass_zero (h1e ▸ hk))
          (angClass_zero (h2e ▸ h1e ▸ hk)) h1c h2c
      · have hu1 := angClass_one hk
        have hw1 := angClass_one (h2e ▸ h1e ▸ hk)
        have : cross u w = 0 := by
          simp only [cross, hu1.1, hw1.1]
          ring
        rw [this]
      · exact cross_trans_upper (angClass_two hk) (angClass_two (h1e ▸ hk))
          (angClass_two (h2e ▸ h1e ▸ hk)) h1c h2c


theorem sortRegion_perm (verts : List Point) (r : List ℤ) :
    (sortRegion verts r).Perm r :=
  List.mergeSort_perm r _

set_option maxHeartbeats 1000000 in
theorem sortRegion_sorted (verts : List Point) (r : List ℤ) :
    List.Pairwise (fun a b =>
      angLe (getVert verts a - centroid (r.map (getVert verts)))
        (getVert verts b - centroid (r.map (getVert verts))) = true)
      (sortRegion verts r) := by
  unfold sortRegion
  exact @List.sorted_mergeSort _
    (fun a b => angLe (getVert verts a - centroid (r.map (getVert verts)))
      (getVert verts b - centroid (r.map (getVert verts))))
    (fun a b d hab hbd => angLe_trans _ _ _ hab hbd)
    (fun a b => angLe_total _ _) r

/-- C7: for a ridge `i` with an unbounded vertex, one pass of the closing loop
of `makeVoronoi` (i) appends to the vertex array exactly one new vertex, equal
to the ridge's finite vertex plus `d_cell` times the direction obtained by
rotating the unit tangent of the two seeds by 90 degrees and signing it by the
dot product of (ridge midpoint - cluster centroid) with that normal, (ii) that
direction indeed points away from the cluster centroid (non-negative dot
product with midpoint - centroid), (iii) the ridge is patched to
`[new_edge, vor_ind]`, (iv) a region containing both the sentinel `-1` and the
finite vertex gets its first `-1` overwritten by `vor_ind`, and (v) every
non-empty region ends up as a permutation of its patched form, sorted into
counter-clockwise (ascending `arctan2`) angular order around the centroid of
its vertices. -/
theorem C7_theorem (nrm : Point → ℚ) (d_cell : ℚ) (c p0 p1 : Point) (i j : ℕ)
    (st : VorState) (ve r : List ℤ)
    (hve : st.ridge_vertices[i]? = some ve)
    (hneg : ∃ x ∈ ve, x < 0)
    (hr : st.regions[j]? = some r) (hrne : r ≠ []) :
    (closeRidge nrm d_cell c p0 p1 i st).vertices
        = st.vertices ++ [getVert st.vertices (newEdgeOf ve)
            + d_cell • (qsign (dot (midpt (p0, p1) - c) (rot90 (unitTang nrm p0 p1)))
                • rot90 (unitTang nrm p0 p1))] ∧
    0 ≤ dot (directionOf nrm c p0 p1) (midpt (p0, p1) - c) ∧
    (closeRidge nrm d_cell c p0 p1 i st).ridge_vertices
        = st.ridge_vertices.set i [newEdgeOf ve, (st.vertices.length : ℤ)] ∧
    ((-1 : ℤ) ∈ r → newEdgeOf ve ∈ r →
      patchRegion (newEdgeOf ve) (st.vertices.length : ℤ) r
        = r.set (List.indexOf (-1) r) (st.vertices.length : ℤ)) ∧
    (((closeRidge nrm d_cell c p0 p1 i st).regions[j]?).getD []).Perm
        (patchRegion (newEdgeOf ve) (st.vertices.length : ℤ) r) ∧
    List.Pairwise (fun a b =>
        angLe (getVert (closeRidge nrm d_cell c p0 p1 i st).vertices a
            - centroid ((patchRegion (newEdgeOf ve) (st.vertices.length : ℤ) r).map
                (getVert (closeRidge nrm d_cell c p0 p1 i st).vertices)))
          (getVert (closeRidge nrm d_cell c p0 p1 i st).vertices b
            - centroid ((patchRegion (newEdgeOf ve) (st.vertices.length : ℤ) r).map
                (getVert (closeRidge nrm d_cell c p0 p1 i st).vertices))) = true)
      (((closeRidge nrm d_cell c p0 p1 i st).regions[j]?).getD []) := by
  have hgd : ((st.ridge_vertices[i]?).getD []) = ve := by
    rw [hve]
    rfl
  have hverts : (closeRidge nrm d_cell c p0 p1 i st).vertices
      = st.vertices ++ [farPointOf nrm d_cell c p0 p1 st.vertices (newEdgeOf ve)] := by
    show st.vertices ++ [farPointOf nrm d_cell c p0 p1 st.vertices
        (newEdgeOf ((st.ridge_vertices[i]?).getD []))] = _
    rw [hgd]
  have hreg : ((closeRidge nrm d_cell c p0 p1 i st).regions[j]?).getD []
      = sortRegion (closeRidge nrm d_cell c p0 p1 i st).vertices
          (patchRegion (newEdgeOf ve) (st.vertices.length : ℤ) r) := by
    show ((st.regions.map _)[j]?).getD [] = _
    rw [List.getElem?_map, hr]
    show (if r = [] then r else _) = _
    rw [if_neg hrne, hgd, hverts]
  refine ⟨?_, ?_, ?_, ?_, ?_, ?_⟩
  · show st.vertices ++ [farPointOf nrm d_cell c p0 p1 st.vertices
        (newEdgeOf ((st.ridge_vertices[i]?).getD []))] = _
    rw [hgd]
    rfl
  · unfold directionOf
    rw [dot_smul_left, dot_comm]
    exact qsign_mul_nonneg _
  · show st.ridge_vertices.set i
        [newEdgeOf ((st.ridge_vertices[i]?).getD []), (st.vertices.length : ℤ)] = _
    rw [hgd]
  · intro h1 h2
    unfold patchRegion
    rw [if_pos ⟨h1, h2⟩]
  · rw [hreg]
    exact sortRegion_perm _ _
  · rw [hreg]
    exact sortRegion_sorted _ _

/-- Voronoi state for the C7 witness: one finite vertex, one unbounded ridge,
one region listing the finite vertex and the sentinel. -/
def c7st : VorState :=
  { vertices := [((0 : ℚ), (0 : ℚ))]
    ridge_vertices := [[-1, 0]]
    regions := [[0, -1]] }

/-- Witness for C7 at a concrete unbounded ridge between seeds (0,0) and
(1,0), with a trivial norm oracle. -/
theorem C7_witness :
    ((c7st.ridge_vertices[0]? = some [-1, 0]) ∧ (∃ x ∈ ([-1, 0] : List ℤ), x < 0) ∧
      (c7st.regions[0]? = some [0, -1]) ∧ (([0, -1] : List ℤ) ≠ [])) ∧
    ((closeRidge (fun _ => 1) 1 (0, -1) (0, 0) (1, 0) 0 c7st).vertices
        = c7st.vertices ++ [getVert c7st.vertices (newEdgeOf [-1, 0])
            + (1 : ℚ) • (qsign (dot (midpt ((0, 0), (1, 0)) - (0, -1))
                  (rot90 (unitTang (fun _ => 1) (0, 0) (1, 0))))
                • rot90 (unitTang (fun _ => 1) (0, 0) (1, 0)))] ∧
      0 ≤ dot (directionOf (fun _ => 1) (0, -1) (0, 0) (1, 0))
          (midpt ((0, 0), (1, 0)) - (0, -1)) ∧
      (closeRidge (fun _ => 1) 1 (0, -1) (0, 0) (1, 0) 0 c7st).ridge_vertices
        = c7st.ridge_vertices.set 0 [newEdgeOf [-1, 0], (c7st.vertices.length : ℤ)] ∧
      ((-1 : ℤ) ∈ ([0, -1] : List ℤ) → newEdgeOf [-1, 0] ∈ ([0, -1] : List ℤ) →
        patchRegion (newEdgeOf [-1, 0]) (c7st.vertices.length : ℤ) [0, -1]
          = ([0, -1] : List ℤ).set (List.indexOf (-1) ([0, -1] : List ℤ))
              (c7st.vertices.length : ℤ)) ∧
      (((closeRidge (fun _ => 1) 1 (0, -1) (0, 0) (1, 0) 0 c7st).regions[0]?).getD []).Perm
          (patchRegion (newEdgeOf [-1, 0]) (c7st.vertices.length : ℤ) [0, -1]) ∧
      List.Pairwise (fun a b =>
          angLe (getVert (closeRidge (fun _ => 1) 1 (0, -1) (0, 0) (1, 0) 0 c7st).vertices a
              - centroid ((patchRegion (newEdgeOf [-1, 0]) (c7st.vertices.length : ℤ)
                    [0, -1]).map
                  (getVert (closeRidge (fun _ => 1) 1 (0, -1) (0, 0) (1, 0) 0 c7st).vertices)))
            (getVert (closeRidge (fun _ => 1) 1 (0, -1) (0, 0) (1, 0) 0 c7st).vertices b
              - centroid ((patchRegion (newEdgeOf [-1, 0]) (c7st.vertices.length : ℤ)
                    [0, -1]).map
                  (getVert (closeRidge (fun _ => 1) 1 (0, -1) (0, 0) (1, 0) 0 c7st).vertices)))
            = true)
        (((closeRidge (fun _ => 1) 1 (0, -1) (0, 0) (1, 0) 0 c7st).regions[0]?).getD [])) :=
  ⟨⟨rfl, by decide, rfl, by decide⟩,
    C7_theorem (fun _ => 1) 1 (0, -1) (0, 0) (1, 0) 0 0 c7st [-1, 0] [0, -1]
      rfl (by decide) rfl (by decide)⟩

end Betse
